import Mathlib

/-!
Shallow embedding of the resqpy hexagonal tri-mesh stencil
(`resqpy/surface/_tri_mesh_stencil.py`) and of the frontier feature
equivalence check (`resqpy/organize/frontier_feature.py`).

Modelling conventions:
* real values are modelled exactly by `ℚ`;
* the floating NaN used both as missing-value sentinel in lattices and as
  padding marker in the rectangular stencil buffer is modelled by
  `Option ℚ`, with `none` as the missing marker;
* numpy arrays become lists (stencil rows) or total functions
  `ℤ → ℤ → Option ℚ` (lattice z buffers); a pattern argument, necessarily
  one dimensional here, is a list of samples.
-/

/-- A lattice sample: `none` models the NaN missing-value sentinel. -/
abbrev Val : Type := Option ℚ

/-- The stencil record built by `TriMeshStencil.__init__`: `n` is the pattern
length, `start_ip` holds the I offset of the start of the stencil for each J
offset, `row_length` the number of valid stencil entries for each J offset,
and `half_hex` the ragged rows of stencil weights (the valid entries of the
rectangular buffer, which is recovered by `TriMeshStencil.rect`). -/
structure TriMeshStencil where
  n : ℕ
  pattern : List ℚ
  start_ip : List ℤ
  row_length : List ℕ
  half_hex : List (List ℚ)

/-- numpy slice assignment `l[-s.length:] = s` (writes the tail of `l`). -/
def setBack (l s : List ℚ) : List ℚ := l.take (l.length - s.length) ++ s

/-- numpy slice assignment `l[:s.length] = s` (writes the head of `l`). -/
def setFront (l s : List ℚ) : List ℚ := s ++ l.drop s.length

/-- Row `jp = 0` of the half hex: `np.concatenate((np.flip(pattern[1:]), pattern))`. -/
def stencilRow0 (p : List ℚ) : List ℚ := (p.drop 1).reverse ++ p

/-- Row `jp ≥ 1` of the half hex: `np.full(2n-1-jp, pattern[jp])`; then, when
`jp < n - 1`, the tail `pattern[jp+1:]` is written at the back of the row and
its reverse at the front. -/
def stencilRow (p : List ℚ) (jp : ℕ) : List ℚ :=
  let n := p.length
  let row_v := List.replicate (2 * n - 1 - jp) (p.getD jp 0)
  if jp < n - 1 then
    let sub := p.drop (jp + 1)
    setFront (setBack row_v sub) sub.reverse
  else row_v

/-- Builds the stencil fields from an already validated (and possibly
normalised) pattern, mirroring the half-hex construction loop of
`TriMeshStencil.__init__`: row 0 starts at I offset `-(n-1)` with length
`2n-1`; row `jp` starts at `-(n-1) + jp // 2` and is one shorter than its
predecessor. -/
def mkStencil (p : List ℚ) : TriMeshStencil where
  n := p.length
  pattern := p
  start_ip :=
    (List.range p.length).map (fun jp => -((p.length : ℤ) - 1) + ((jp / 2 : ℕ) : ℤ))
  row_length := (List.range p.length).map (fun jp => 2 * p.length - 1 - jp)
  half_hex := stencilRow0 p :: (List.range (p.length - 1)).map (fun k => stencilRow p (k + 1))

/-- The in-place ring division loop `for i in range(1, n): pattern[i] /= 6 * i`,
expressed as an index-carrying elementwise rewrite. -/
def divideRings : ℕ → List ℚ → List ℚ
  | _, [] => []
  | k, x :: xs => (if k = 0 then x else x / (6 * (k : ℚ))) :: divideRings (k + 1) xs

/-- The normalisation step of `TriMeshStencil.__init__`: scale the whole
pattern by `normalise / sum(pattern)`, then divide each ring weight (index
`k ≥ 1`) by `6k`. -/
def normalisePattern (p : List ℚ) (s : ℚ) : List ℚ :=
  divideRings 0 (p.map (fun x => x * (s / p.sum)))

/-- Validation failures of `TriMeshStencil.__init__` (each an `assert` in the
source).  A pattern that is not one dimensional is not representable in this
embedding, so that assertion cannot fire here. -/
inductive StencilError where
  | tooShort
  | containsNaN
  | normaliseZero
  | zeroSum
deriving DecidableEq, Repr

/-- `TriMeshStencil.__init__`: validation, optional normalisation, and the
half-hex construction.  The `Bool` component records whether the
very-large-pattern warning (length > 50) was logged.  `maths.isclose(x, 0.0)`
with default tolerances holds exactly when `x == 0.0`, so the two normalise
guards are exact zero tests. -/
def buildStencil (p0 : List Val) (normalise : Option ℚ) :
    Except StencilError (TriMeshStencil × Bool) :=
  if p0.length < 2 then .error .tooShort
  else if p0.any (fun v => v.isNone) then .error .containsNaN
  else
    let p : List ℚ := p0.map (fun v => v.getD 0)
    let warn : Bool := decide (50 < p0.length)
    match normalise with
    | none => .ok (mkStencil p, warn)
    | some s =>
      if s = 0 then .error .normaliseZero
      else if p.sum = 0 then .error .zeroSum
      else .ok (mkStencil (normalisePattern p s), warn)

/-- The rectangular `(n, 2n-1)` buffer `self.half_hex`: each ragged row is
left aligned and the unused trailing slots hold the NaN marker (`none`). -/
def TriMeshStencil.rect (st : TriMeshStencil) : List (List Val) :=
  st.half_hex.map (fun r => r.map some ++ List.replicate (2 * st.n - 1 - r.length) none)

/-- The lattice object as seen by `TriMeshStencil.apply`: geometric metadata
plus the z channel (`full_array_ref()[:, :, 2]`), read at row/column indices. -/
structure TriMesh where
  t_side : ℚ
  nj : ℕ
  ni : ℕ
  origin : ℚ × ℚ × ℚ
  z_uom : String
  surface_role : String
  crs_uuid : ℕ
  title : String
  z : ℤ → ℤ → Val

/-- Border width used by `apply`: the stencil size `n` rounded up to the next
even integer. -/
def stencilBorder (n : ℕ) : ℕ := if n % 2 = 1 then n + 1 else n

/-- The padded z buffer of `apply`: the input z values copied into the
interior of a `(nj + 2·border, ni + 2·border)` buffer whose border is filled
with the missing marker (the `handle_nan` branch fill value). -/
def paddedZ (tm : TriMesh) (border : ℕ) : ℤ → ℤ → Val := fun j i =>
  if (border : ℤ) ≤ j ∧ j < border + tm.nj ∧ (border : ℤ) ≤ i ∧ i < border + tm.ni then
    tm.z (j - border) (i - border)
  else none

/-- One tap read of `apply_stencil_nanmean`: if the value is not NaN, add
`v * s` to the weighted sum and `s` to the weight total. -/
def tapStep (z : ℤ → ℤ → Val) (jq i_s : ℤ) (s : ℚ) (acc : ℚ × ℚ) : ℚ × ℚ :=
  match z jq i_s with
  | some v => (acc.1 + v * s, acc.2 + s)
  | none => acc

/-- The contribution of one tap read, as a pair (weighted value, weight):
`(v * s, s)` when the sample is present, `(0, 0)` when it is missing. -/
def tapPair (z : ℤ → ℤ → Val) (jq i_s : ℤ) (s : ℚ) : ℚ × ℚ :=
  match z jq i_s with
  | some v => (v * s, s)
  | none => (0, 0)

/-- The body of the inner `ip` loop of `apply_stencil_nanmean`: reads the tap
on row `j - jp`, and, when `jp ≠ 0`, also the mirrored tap on row `j + jp`.
`js_odd = (jp % 2) * (j % 2)` is the row-parity column adjustment. -/
def innerStep (st : TriMeshStencil) (z : ℤ → ℤ → Val) (j i : ℤ) (jp : ℕ)
    (acc : ℚ × ℚ) (ip : ℕ) : ℚ × ℚ :=
  let js_odd : ℤ := ((jp % 2 : ℕ) : ℤ) * (j % 2)
  let i_s : ℤ := i + st.start_ip.getD jp 0 + (ip : ℤ) + js_odd
  let s : ℚ := (st.half_hex.getD jp []).getD ip 0
  let acc1 := tapStep z (j - (jp : ℤ)) i_s s acc
  if jp ≠ 0 then tapStep z (j + (jp : ℤ)) i_s s acc1 else acc1

/-- The accumulation loops of `apply_stencil_nanmean` for one output cell:
`a = 0; ws = 0;` then for `jp in range(n)`, for `ip in range(row_length[jp])`,
accumulate the (mirrored) tap contributions. -/
def cellAccum (st : TriMeshStencil) (z : ℤ → ℤ → Val) (j i : ℤ) : ℚ × ℚ :=
  (List.range st.n).foldl
    (fun acc jp => (List.range (st.row_length.getD jp 0)).foldl (innerStep st z j i jp) acc)
    (0, 0)

/-- One output cell of `apply_stencil_nanmean`: `a / ws` when `ws ≠ 0`,
otherwise the cell keeps the NaN the `applied` buffer was filled with. -/
def cellValue (st : TriMeshStencil) (z : ℤ → ℤ → Val) (j i : ℤ) : Val :=
  let aw := cellAccum st z j i
  if aw.2 ≠ 0 then some (aw.1 / aw.2) else none

/-- The error raised by `apply` when the exact (non-NaN-tolerant) convolution
is requested. -/
inductive ApplyError where
  | notImplemented
deriving DecidableEq, Repr

/-- `TriMeshStencil.apply`: pads the z values with a NaN border of even width,
runs `apply_stencil_nanmean` when `handle_nan`, raises otherwise, and wraps
the interior of the `applied` buffer in a new lattice carrying the input's
geometric metadata. -/
def TriMeshStencil.apply (st : TriMeshStencil) (tm : TriMesh) (handle_nan : Bool)
    (title : Option String) : Except ApplyError TriMesh :=
  let border := stencilBorder st.n
  if handle_nan then
    let zp := paddedZ tm border
    .ok { tm with
          title := title.getD tm.title
          z := fun j i =>
            if 0 ≤ j ∧ j < tm.nj ∧ 0 ≤ i ∧ i < tm.ni then
              cellValue st zp (j + border) (i + border)
            else none }
  else .error .notImplemented

/-- Frontier feature record: `feature_name` is an alias for the inherited
`title`; `uuid` is always populated (the base class generates one when none
is supplied). -/
structure FrontierFeature where
  uuid : ℕ
  title : String
  extra_metadata : List (String × String)
deriving DecidableEq, Repr

/-- Alias `feature_name = alias_for_attribute("title")`. -/
def FrontierFeature.feature_name (f : FrontierFeature) : String := f.title

/-- `bu.matching_uuids` on the value model of uuids. -/
def matching_uuids (a b : ℕ) : Bool := a == b

/-- The `other` argument of `is_equivalent`: `None`, an object of some other
class, or a frontier feature. -/
inductive FFOther where
  | none
  | notFF
  | ff (f : FrontierFeature)

/-- `FrontierFeature.is_equivalent`, parametrised by the extra-metadata
equivalence predicate `emEquiv` (the helper `equivalent_extra_metadata` lives
outside this repository's sources). -/
def FrontierFeature.is_equivalent (emEquiv : FrontierFeature → FrontierFeature → Bool)
    (self : FrontierFeature) (other : FFOther) (check_extra_metadata : Bool) : Bool :=
  match other with
  | .none => false
  | .notFF => false
  | .ff o =>
    if matching_uuids self.uuid o.uuid then true
    else if check_extra_metadata && !(emEquiv self o) then false
    else self.feature_name == o.feature_name

/-- The total contribution of loop step `(jp, ip)` to the accumulator pair
`(weightedSum, weightTotal)`: the tap on row `j - jp` plus, when `jp ≠ 0`,
the mirrored tap on row `j + jp`, both at column
`i + start_ip[jp] + ip + (jp % 2) * (j % 2)` and with weight
`half_hex[jp][ip]`. -/
def tapContribution (st : TriMeshStencil) (z : ℤ → ℤ → Val) (j i : ℤ) (jp ip : ℕ) : ℚ × ℚ :=
  let js_odd : ℤ := ((jp % 2 : ℕ) : ℤ) * (j % 2)
  let i_s : ℤ := i + st.start_ip.getD jp 0 + (ip : ℤ) + js_odd
  let s : ℚ := (st.half_hex.getD jp []).getD ip 0
  tapPair z (j - (jp : ℤ)) i_s s + (if jp ≠ 0 then tapPair z (j + (jp : ℤ)) i_s s else 0)

/-- The source coordinates read by loop step `(jp, ip)` of
`apply_stencil_nanmean` for output cell `(j, i)`. -/
def tapCoords (st : TriMeshStencil) (j i : ℤ) (jp ip : ℕ) : List (ℤ × ℤ) :=
  let js_odd : ℤ := ((jp % 2 : ℕ) : ℤ) * (j % 2)
  let i_s : ℤ := i + st.start_ip.getD jp 0 + (ip : ℤ) + js_odd
  (j - (jp : ℤ), i_s) :: (if jp ≠ 0 then [(j + (jp : ℤ), i_s)] else [])

/-! ### Concrete fixtures used to exercise the theorems on closed inputs -/

/-- A small fully populated 2 x 2 lattice. -/
def tmA : TriMesh where
  t_side := 10
  nj := 2
  ni := 2
  origin := (1, 2, 3)
  z_uom := "m"
  surface_role := "map"
  crs_uuid := 7
  title := "lattice"
  z := fun j i => if 0 ≤ j ∧ j < 2 ∧ 0 ≤ i ∧ i < 2 then some (5 + j + 2 * i) else none

/-- A 1 x 1 lattice whose only sample is missing. -/
def tmB : TriMesh where
  t_side := 1
  nj := 1
  ni := 1
  origin := (0, 0, 0)
  z_uom := "m"
  surface_role := "map"
  crs_uuid := 3
  title := "missing"
  z := fun _ _ => none

/-- The identity stencil fixture, pattern [1, 0]. -/
def stA : TriMeshStencil := mkStencil [1, 0]

/-- The lattice produced by applying `stA` to `tmA` (the `.ok` payload). -/
def tmA' : TriMesh :=
  match stA.apply tmA true .none with
  | .ok t => t
  | .error _ => tmA

/-- The lattice produced by applying `stA` to `tmB` (the `.ok` payload). -/
def tmB' : TriMesh :=
  match stA.apply tmB true .none with
  | .ok t => t
  | .error _ => tmB

/-- A frontier feature fixture. -/
def ffA : FrontierFeature where
  uuid := 1
  title := "A"
  extra_metadata := []

/-- A second frontier feature fixture with a different uuid. -/
def ffB : FrontierFeature where
  uuid := 2
  title := "B"
  extra_metadata := []

/-! ### List access helpers -/

lemma getD_range_map {β : Type _} (f : ℕ → β) (n k : ℕ) (d : β) (hk : k < n) :
    ((List.range n).map f).getD k d = f k := by
  rw [List.getD_eq_getElem _ _ (by simpa using hk)]
  simp

lemma mkStencil_n (p : List ℚ) : (mkStencil p).n = p.length := rfl

lemma mkStencil_start_ip (p : List ℚ) {jp : ℕ} (h : jp < p.length) :
    (mkStencil p).start_ip.getD jp 0 = -((p.length : ℤ) - 1) + ((jp / 2 : ℕ) : ℤ) :=
  getD_range_map _ _ _ _ h

lemma mkStencil_row_length (p : List ℚ) {jp : ℕ} (h : jp < p.length) :
    (mkStencil p).row_length.getD jp 0 = 2 * p.length - 1 - jp :=
  getD_range_map _ _ _ _ h

lemma mkStencil_half_hex_zero (p : List ℚ) :
    (mkStencil p).half_hex.getD 0 [] = stencilRow0 p := rfl

lemma mkStencil_half_hex_succ (p : List ℚ) {k : ℕ} (h : k + 1 < p.length) :
    (mkStencil p).half_hex.getD (k + 1) [] = stencilRow p (k + 1) := by
  show (stencilRow0 p :: (List.range (p.length - 1)).map (fun m => stencilRow p (m + 1))).getD
      (k + 1) [] = _
  rw [List.getD_cons_succ]
  exact getD_range_map _ _ _ _ (by omega)

/-! ### Closed forms of the stencil rows -/

lemma stencilRow0_closed (p : List ℚ) (h : 1 ≤ p.length) :
    stencilRow0 p = (p.drop 1).reverse ++ List.replicate 1 (p.getD 0 0) ++ p.drop 1 := by
  cases p with
  | nil => simp at h
  | cons a t => simp [stencilRow0]

lemma stencilRow_closed (p : List ℚ) {jp : ℕ} (h1 : 1 ≤ jp) (h2 : jp < p.length) :
    stencilRow p jp
      = (p.drop (jp + 1)).reverse ++ List.replicate (jp + 1) (p.getD jp 0) ++ p.drop (jp + 1) := by
  simp only [stencilRow, setBack, setFront]
  by_cases hlt : jp < p.length - 1
  · rw [if_pos hlt]
    have hsub : (p.drop (jp + 1)).length = p.length - 1 - jp := by simp; omega
    rw [List.take_replicate, List.length_replicate]
    have h3 : min (2 * p.length - 1 - jp - (p.drop (jp + 1)).length) (2 * p.length - 1 - jp)
        = p.length := by rw [hsub]; omega
    rw [h3, List.length_reverse, List.drop_append_eq_append_drop, List.drop_replicate,
      List.length_replicate]
    have h4 : p.length - (p.drop (jp + 1)).length = jp + 1 := by rw [hsub]; omega
    have h5 : (p.drop (jp + 1)).length - p.length = 0 := by rw [hsub]; omega
    rw [h4, h5]
    simp
  · rw [if_neg hlt]
    have hjp : jp = p.length - 1 := by omega
    have hdrop : p.drop (jp + 1) = [] := List.drop_eq_nil_of_le (by omega)
    rw [hdrop]
    simp
    omega

lemma stencilRow0_length (p : List ℚ) (h : 1 ≤ p.length) :
    (stencilRow0 p).length = 2 * p.length - 1 := by
  simp [stencilRow0]
  omega

lemma mkStencil_row (p : List ℚ) {jp : ℕ} (h1 : 1 ≤ p.length) (h2 : jp < p.length) :
    (mkStencil p).half_hex.getD jp []
      = (p.drop (jp + 1)).reverse ++ List.replicate (jp + 1) (p.getD jp 0) ++ p.drop (jp + 1) := by
  cases jp with
  | zero => rw [mkStencil_half_hex_zero, stencilRow0_closed p h1]
  | succ k => rw [mkStencil_half_hex_succ p h2, stencilRow_closed p (by omega) h2]

lemma mkStencil_row_len (p : List ℚ) {jp : ℕ} (h1 : 1 ≤ p.length) (h2 : jp < p.length) :
    ((mkStencil p).half_hex.getD jp []).length = 2 * p.length - 1 - jp := by
  rw [mkStencil_row p h1 h2]
  simp
  omega

/-! ### Normalisation lemmas -/

lemma divideRings_length (k : ℕ) (l : List ℚ) : (divideRings k l).length = l.length := by
  induction l generalizing k with
  | nil => rfl
  | cons x xs ih => simp [divideRings, ih]

lemma divideRings_getD (k i : ℕ) (l : List ℚ) :
    (divideRings k l).getD i 0
      = if k + i = 0 then l.getD i 0 else l.getD i 0 / (6 * ((k + i : ℕ) : ℚ)) := by
  induction l generalizing k i with
  | nil => simp [divideRings]
  | cons x xs ih =>
    cases i with
    | zero => simp only [divideRings, List.getD_cons_zero, Nat.add_zero]
    | succ m =>
      simp only [divideRings, List.getD_cons_succ]
      rw [ih (k + 1) m]
      have e : k + 1 + m = k + (m + 1) := by omega
      rw [e]

lemma normalisePattern_getD (p : List ℚ) (s : ℚ) (k : ℕ) :
    (normalisePattern p s).getD k 0
      = if k = 0 then p.getD 0 0 * (s / p.sum)
        else p.getD k 0 * (s / p.sum) / (6 * (k : ℚ)) := by
  unfold normalisePattern
  rw [divideRings_getD]
  have hmap : (p.map (fun x => x * (s / p.sum))).getD k 0 = p.getD k 0 * (s / p.sum) := by
    have h := List.getD_map (l := p) (d := 0) (f := fun x => x * (s / p.sum)) (n := k)
    simpa using h
  rw [hmap]
  simp only [Nat.zero_add]
  by_cases hk : k = 0 <;> simp [hk]

lemma sum_getD_range (l : List ℚ) :
    ∑ k ∈ Finset.range l.length, l.getD k 0 = l.sum := by
  induction l with
  | nil => simp
  | cons x xs ih =>
    rw [List.length_cons, Finset.sum_range_succ']
    simp only [List.getD_cons_succ, List.getD_cons_zero, List.sum_cons]
    rw [ih, add_comm]

/-- Claim C2: building with a nonzero normalise target S scales the pattern by
S / sum(pattern) and divides each ring weight k ≥ 1 by 6k, so that the centre
weight plus the sum over the rings of ring weight times ring size 6k equals
exactly S. -/
theorem C2_normalisation_sum (p : List ℚ) (S : ℚ) (hn : 2 ≤ p.length)
    (ht : p.sum ≠ 0) (hS : S ≠ 0) :
    (normalisePattern p S).getD 0 0
      + ∑ k ∈ Finset.Icc 1 (p.length - 1),
          (normalisePattern p S).getD k 0 * (6 * (k : ℚ)) = S := by
  have hIcc : Finset.Icc 1 (p.length - 1) = Finset.Ico 1 p.length := by
    rw [← Nat.Ico_succ_right]
    congr 1
    omega
  have hterm : ∀ k ∈ Finset.Ico 1 p.length,
      (normalisePattern p S).getD k 0 * (6 * (k : ℚ)) = p.getD k 0 * (S / p.sum) := by
    intro k hk
    rw [Finset.mem_Ico] at hk
    rw [normalisePattern_getD, if_neg (by omega)]
    have h6 : (6 * (k : ℚ)) ≠ 0 := by
      have hk0 : (0 : ℚ) < (k : ℚ) := by exact_mod_cast hk.1
      positivity
    rw [div_mul_cancel₀ _ h6]
  rw [hIcc, Finset.sum_congr rfl hterm, normalisePattern_getD, if_pos rfl]
  have hsplit : ∑ k ∈ Finset.range p.length, p.getD k 0 * (S / p.sum)
      = p.getD 0 0 * (S / p.sum)
        + ∑ k ∈ Finset.Ico 1 p.length, p.getD k 0 * (S / p.sum) := by
    rw [Finset.range_eq_Ico]
    exact Finset.sum_eq_sum_Ico_succ_bot (by omega) _
  rw [← hsplit, ← Finset.sum_mul, sum_getD_range, mul_comm, div_mul_cancel₀ _ ht]

/-- Claim C3: the built stencil has row_length[0] = 2n-1, each following row
one shorter (down to n at jp = n-1), start_ip[0] = -(n-1) and
start_ip[jp] = -(n-1) + jp // 2. -/
theorem C3_row_geometry (p : List ℚ) (hn : 2 ≤ p.length) :
    (mkStencil p).row_length.getD 0 0 = 2 * p.length - 1 ∧
    (∀ jp, 1 ≤ jp → jp ≤ p.length - 1 →
      (mkStencil p).row_length.getD jp 0 = (mkStencil p).row_length.getD (jp - 1) 0 - 1) ∧
    (mkStencil p).row_length.getD (p.length - 1) 0 = p.length ∧
    (mkStencil p).start_ip.getD 0 0 = -((p.length : ℤ) - 1) ∧
    (∀ jp, 1 ≤ jp → jp ≤ p.length - 1 →
      (mkStencil p).start_ip.getD jp 0 = -((p.length : ℤ) - 1) + ((jp / 2 : ℕ) : ℤ)) := by
  refine ⟨?_, ?_, ?_, ?_, ?_⟩
  · rw [mkStencil_row_length p (by omega)]
    omega
  · intro jp h1 h2
    rw [mkStencil_row_length p (by omega), mkStencil_row_length p (by omega)]
    omega
  · rw [mkStencil_row_length p (by omega)]
    omega
  · rw [mkStencil_start_ip p (by omega)]
    simp
  · intro jp h1 h2
    rw [mkStencil_start_ip p (by omega)]

/-- Claim C4: every half-hex weight row is a palindrome on its valid entries,
with interior entries equal to pattern[jp] and the outer (n-1-jp) entries at
each end carrying the mirrored tail pattern[jp+1:]. -/
theorem C4_radial_symmetry (p : List ℚ) (hn : 2 ≤ p.length) (jp : ℕ) (hjp : jp < p.length) :
    ((mkStencil p).half_hex.getD jp []).reverse = (mkStencil p).half_hex.getD jp [] ∧
    (mkStencil p).half_hex.getD jp []
      = (p.drop (jp + 1)).reverse ++ List.replicate (jp + 1) (p.getD jp 0) ++ p.drop (jp + 1) := by
  have h := mkStencil_row p (by omega) hjp
  refine ⟨?_, h⟩
  rw [h]
  simp [List.reverse_append, List.reverse_replicate, List.append_assoc]

/-! ### Fold-to-sum correspondence for the convolution loops -/

lemma tapStep_eq (z : ℤ → ℤ → Val) (jq i_s : ℤ) (s : ℚ) (acc : ℚ × ℚ) :
    tapStep z jq i_s s acc = acc + tapPair z jq i_s s := by
  unfold tapStep tapPair
  cases z jq i_s with
  | none => simp [Prod.ext_iff]
  | some v => simp [Prod.ext_iff]

lemma innerStep_eq (st : TriMeshStencil) (z : ℤ → ℤ → Val) (j i : ℤ) (jp : ℕ)
    (acc : ℚ × ℚ) (ip : ℕ) :
    innerStep st z j i jp acc ip = acc + tapContribution st z j i jp ip := by
  by_cases h : jp = 0
  · subst h
    simp [innerStep, tapContribution, tapStep_eq]
  · simp [innerStep, tapContribution, tapStep_eq, h, add_assoc]

lemma foldl_innerStep (st : TriMeshStencil) (z : ℤ → ℤ → Val) (j i : ℤ) (jp : ℕ)
    (l : List ℕ) (acc : ℚ × ℚ) :
    l.foldl (innerStep st z j i jp) acc = acc + (l.map (tapContribution st z j i jp)).sum := by
  induction l generalizing acc with
  | nil => simp
  | cons x xs ih =>
    simp only [List.foldl_cons, List.map_cons, List.sum_cons]
    rw [innerStep_eq, ih, add_assoc]

lemma list_sum_range_eq_finset_sum (f : ℕ → ℚ × ℚ) (m : ℕ) :
    ((List.range m).map f).sum = ∑ k ∈ Finset.range m, f k := by
  induction m with
  | zero => simp
  | succ m ih =>
    rw [List.range_succ, List.map_append, List.sum_append, Finset.sum_range_succ, ih]
    simp

lemma cellAccum_eq_sum (st : TriMeshStencil) (z : ℤ → ℤ → Val) (j i : ℤ) :
    cellAccum st z j i
      = ∑ jp ∈ Finset.range st.n, ∑ ip ∈ Finset.range (st.row_length.getD jp 0),
          tapContribution st z j i jp ip := by
  unfold cellAccum
  have houter : ∀ (l : List ℕ) (init : ℚ × ℚ),
      l.foldl (fun acc jp =>
          (List.range (st.row_length.getD jp 0)).foldl (innerStep st z j i jp) acc) init
        = init + (l.map (fun jp => ∑ ip ∈ Finset.range (st.row_length.getD jp 0),
            tapContribution st z j i jp ip)).sum := by
    intro l
    induction l with
    | nil => intro init; simp
    | cons x xs ih =>
      intro init
      simp only [List.foldl_cons, List.map_cons, List.sum_cons]
      rw [foldl_innerStep, list_sum_range_eq_finset_sum, ih, add_assoc]
  rw [houter, list_sum_range_eq_finset_sum]
  simp

lemma cellValue_eq_sum (st : TriMeshStencil) (z : ℤ → ℤ → Val) (j i : ℤ) :
    cellValue st z j i
      = (if (∑ jp ∈ Finset.range st.n, ∑ ip ∈ Finset.range (st.row_length.getD jp 0),
              (tapContribution st z j i jp ip).2) ≠ 0
         then some ((∑ jp ∈ Finset.range st.n, ∑ ip ∈ Finset.range (st.row_length.getD jp 0),
              (tapContribution st z j i jp ip).1)
            / (∑ jp ∈ Finset.range st.n, ∑ ip ∈ Finset.range (st.row_length.getD jp 0),
              (tapContribution st z j i jp ip).2))
         else none) := by
  simp only [cellValue, cellAccum_eq_sum, Prod.fst_sum, Prod.snd_sum]

lemma tapContribution_eq_zero_of_missing (st : TriMeshStencil) (z : ℤ → ℤ → Val)
    (j i : ℤ) (jp ip : ℕ)
    (h : ∀ c ∈ tapCoords st j i jp ip, z c.1 c.2 = none) :
    tapContribution st z j i jp ip = 0 := by
  simp only [tapCoords, List.mem_cons] at h
  have h1 : z (j - (jp : ℤ))
      (i + st.start_ip.getD jp 0 + (ip : ℤ) + ((jp % 2 : ℕ) : ℤ) * (j % 2)) = none :=
    h (j - (jp : ℤ), i + st.start_ip.getD jp 0 + (ip : ℤ) + ((jp % 2 : ℕ) : ℤ) * (j % 2))
      (Or.inl rfl)
  have h2 : jp ≠ 0 → z (j + (jp : ℤ))
      (i + st.start_ip.getD jp 0 + (ip : ℤ) + ((jp % 2 : ℕ) : ℤ) * (j % 2)) = none := by
    intro hjp
    exact h (j + (jp : ℤ), i + st.start_ip.getD jp 0 + (ip : ℤ) + ((jp % 2 : ℕ) : ℤ) * (j % 2))
      (Or.inr (by simp [hjp]))
  simp only [tapContribution, tapPair]
  by_cases hjp : jp = 0
  · subst hjp
    rw [h1]
    simp
  · rw [h1, h2 hjp]
    simp [hjp]

/-- Claim C1: with handle_nan the apply routine computes each output cell as
weightedSum / weightTotal when weightTotal is nonzero and as the missing value
otherwise, where a tap on a present sample contributes value x weight and
weight to the accumulators and a tap on a missing sample contributes nothing
(`tapContribution`); in particular a cell all of whose taps land on missing
samples is missing in the output. -/
theorem C1_weighted_nanmean (st : TriMeshStencil) (tm tm' : TriMesh) (j i : ℤ)
    (hj0 : 0 ≤ j) (hj1 : j < tm.nj) (hi0 : 0 ≤ i) (hi1 : i < tm.ni)
    (happly : st.apply tm true .none = .ok tm') :
    (tm'.z j i
      = if (∑ jp ∈ Finset.range st.n, ∑ ip ∈ Finset.range (st.row_length.getD jp 0),
              (tapContribution st (paddedZ tm (stencilBorder st.n))
                (j + stencilBorder st.n) (i + stencilBorder st.n) jp ip).2) ≠ 0
        then some
          ((∑ jp ∈ Finset.range st.n, ∑ ip ∈ Finset.range (st.row_length.getD jp 0),
              (tapContribution st (paddedZ tm (stencilBorder st.n))
                (j + stencilBorder st.n) (i + stencilBorder st.n) jp ip).1)
            / (∑ jp ∈ Finset.range st.n, ∑ ip ∈ Finset.range (st.row_length.getD jp 0),
              (tapContribution st (paddedZ tm (stencilBorder st.n))
                (j + stencilBorder st.n) (i + stencilBorder st.n) jp ip).2))
        else none) ∧
    ((∀ jp < st.n, ∀ ip < st.row_length.getD jp 0,
        ∀ c ∈ tapCoords st (j + stencilBorder st.n) (i + stencilBorder st.n) jp ip,
          paddedZ tm (stencilBorder st.n) c.1 c.2 = none) →
      tm'.z j i = none) := by
  have hz : tm'.z j i = cellValue st (paddedZ tm (stencilBorder st.n))
      (j + stencilBorder st.n) (i + stencilBorder st.n) := by
    simp only [TriMeshStencil.apply, if_true, Option.getD_none] at happly
    rw [Except.ok.injEq] at happly
    rw [← happly]
    dsimp only
    rw [if_pos ⟨hj0, hj1, hi0, hi1⟩]
  constructor
  · rw [hz, cellValue_eq_sum]
  · intro hmiss
    rw [hz, cellValue_eq_sum]
    have hsum : (∑ jp ∈ Finset.range st.n, ∑ ip ∈ Finset.range (st.row_length.getD jp 0),
        (tapContribution st (paddedZ tm (stencilBorder st.n)) (j + stencilBorder st.n)
          (i + stencilBorder st.n) jp ip).2) = 0 := by
      refine Finset.sum_eq_zero ?_
      intro jp hjp
      refine Finset.sum_eq_zero ?_
      intro ip hip
      rw [tapContribution_eq_zero_of_missing]
      · rfl
      · exact hmiss jp (Finset.mem_range.mp hjp) ip (Finset.mem_range.mp hip)
    rw [hsum]
    simp

/-! ### Bounds of the convolution loop (C5) -/

lemma stencilBorder_ge (n : ℕ) : n ≤ stencilBorder n ∧ stencilBorder n ≤ n + 1 := by
  unfold stencilBorder
  split <;> omega

lemma mkStencil_half_hex_length (p : List ℚ) (h : 1 ≤ p.length) :
    (mkStencil p).half_hex.length = p.length := by
  show (stencilRow0 p :: (List.range (p.length - 1)).map (fun k => stencilRow p (k + 1))).length
      = p.length
  simp
  omega

/-- Claim C5: with the border set to n rounded up to the next even integer,
every source-coordinate read of the convolution loop lies inside the padded
(nj + 2 border, ni + 2 border) buffer, and the weight read at (jp, ip) with
ip < row_length[jp] lands on a valid (non-NaN) slot of the rectangular
stencil buffer, equal to the corresponding ragged-row weight. -/
theorem C5_loop_in_bounds (p : List ℚ) (nj ni : ℕ) (j i : ℤ) (jp ip : ℕ)
    (hn : 2 ≤ p.length)
    (hj0 : (stencilBorder p.length : ℤ) ≤ j) (hj1 : j < stencilBorder p.length + nj)
    (hi0 : (stencilBorder p.length : ℤ) ≤ i) (hi1 : i < stencilBorder p.length + ni)
    (hjp : jp < (mkStencil p).n) (hip : ip < (mkStencil p).row_length.getD jp 0) :
    (∀ c ∈ tapCoords (mkStencil p) j i jp ip,
        0 ≤ c.1 ∧ c.1 < ((nj + 2 * stencilBorder p.length : ℕ) : ℤ) ∧
        0 ≤ c.2 ∧ c.2 < ((ni + 2 * stencilBorder p.length : ℕ) : ℤ)) ∧
    ((mkStencil p).rect.getD jp []).getD ip none
      = some (((mkStencil p).half_hex.getD jp []).getD ip 0) := by
  have hjp' : jp < p.length := hjp
  have hip' : ip < 2 * p.length - 1 - jp := by
    rw [mkStencil_row_length p hjp'] at hip
    exact hip
  have hb := stencilBorder_ge p.length
  constructor
  · intro c hc
    have hsip : (mkStencil p).start_ip.getD jp 0
        = -((p.length : ℤ) - 1) + ((jp / 2 : ℕ) : ℤ) := mkStencil_start_ip p hjp'
    have hm0 : (0 : ℤ) ≤ ((jp % 2 : ℕ) : ℤ) * (j % 2) := by
      apply mul_nonneg
      · positivity
      · exact Int.emod_nonneg j (by norm_num)
    have hm1 : ((jp % 2 : ℕ) : ℤ) * (j % 2) ≤ 1 := by
      have ha0 : (0 : ℤ) ≤ ((jp % 2 : ℕ) : ℤ) := by positivity
      have ha1 : ((jp % 2 : ℕ) : ℤ) ≤ 1 := by omega
      have hb0 : (0 : ℤ) ≤ j % 2 := Int.emod_nonneg j (by norm_num)
      have hb1 : j % 2 ≤ 1 := by omega
      nlinarith
    simp only [tapCoords, List.mem_cons, hsip] at hc
    rcases hc with hc | hc
    · subst hc
      refine ⟨by simp; omega, by simp; omega, ?_, ?_⟩ <;>
        · simp only []
          generalize hgen : ((jp % 2 : ℕ) : ℤ) * (j % 2) = m at hm0 hm1
          omega
    · by_cases hjp0 : jp ≠ 0
      · rw [if_pos hjp0] at hc
        simp only [List.mem_singleton] at hc
        subst hc
        refine ⟨by simp; omega, by simp; omega, ?_, ?_⟩ <;>
          · simp only []
            generalize hgen : ((jp % 2 : ℕ) : ℤ) * (j % 2) = m at hm0 hm1
            omega
      · rw [if_neg hjp0] at hc
        simp at hc
  · have hrowlen : ((mkStencil p).half_hex.getD jp []).length = 2 * p.length - 1 - jp :=
      mkStencil_row_len p (by omega) hjp'
    have hhlen : jp < (mkStencil p).half_hex.length := by
      rw [mkStencil_half_hex_length p (by omega)]
      exact hjp'
    have hrect : (mkStencil p).rect.getD jp []
        = ((mkStencil p).half_hex.getD jp []).map some
          ++ List.replicate
              (2 * (mkStencil p).n - 1 - ((mkStencil p).half_hex.getD jp []).length) none := by
      unfold TriMeshStencil.rect
      rw [List.getD_eq_getElem _ _ (by simpa using hhlen), List.getElem_map,
        List.getD_eq_getElem _ _ hhlen]
    rw [hrect]
    rw [List.getD_append _ _ _ _ (by rw [List.length_map, hrowlen]; omega)]
    rw [List.getD_eq_getElem _ _ (by rw [List.length_map, hrowlen]; omega), List.getElem_map]
    congr 1
    exact (List.getD_eq_getElem _ _ (by rw [hrowlen]; omega)).symm

/-! ### The identity stencil (C6) -/

lemma getD_eq_zero_of_forall (l : List ℚ) (h : ∀ x ∈ l, x = 0) (k : ℕ) : l.getD k 0 = 0 := by
  by_cases hk : k < l.length
  · rw [List.getD_eq_getElem _ _ hk]
    exact h _ (List.getElem_mem hk)
  · exact List.getD_eq_default _ _ (by omega)

lemma getD_zero_of_tail_zero (p : List ℚ) (hz : ∀ x ∈ p.drop 1, x = 0) {k : ℕ} (hk : 1 ≤ k) :
    p.getD k 0 = 0 := by
  cases p with
  | nil => simp
  | cons a t =>
    cases k with
    | zero => omega
    | succ m =>
      rw [List.getD_cons_succ]
      exact getD_eq_zero_of_forall t (by simpa using hz) m

lemma row0_getD_zero (p : List ℚ) (hn : 2 ≤ p.length) (hz : ∀ x ∈ p.drop 1, x = 0)
    {ip : ℕ} (hip : ip ≠ p.length - 1) :
    (stencilRow0 p).getD ip 0 = 0 := by
  unfold stencilRow0
  by_cases h1 : ip < p.length - 1
  · rw [List.getD_append _ _ _ _ (by simp; omega)]
    rw [List.getD_eq_getElem _ _ (by simp; omega)]
    apply hz
    exact List.mem_reverse.mp (List.getElem_mem _)
  · rw [List.getD_append_right _ _ _ _ (by simp; omega)]
    exact getD_zero_of_tail_zero p hz (by simp; omega)

lemma row0_center (p : List ℚ) (hn : 1 ≤ p.length) :
    (stencilRow0 p).getD (p.length - 1) 0 = p.getD 0 0 := by
  unfold stencilRow0
  rw [List.getD_append_right _ _ _ _ (by simp)]
  congr 1
  simp

lemma row_succ_zero (p : List ℚ) (hn : 2 ≤ p.length) (hz : ∀ x ∈ p.drop 1, x = 0)
    {jp : ℕ} (h1 : 1 ≤ jp) (hjp : jp < p.length) (ip : ℕ) :
    ((mkStencil p).half_hex.getD jp []).getD ip 0 = 0 := by
  rw [mkStencil_row p (by omega) hjp]
  apply getD_eq_zero_of_forall
  intro x hx
  have hdropz : ∀ y ∈ p.drop (jp + 1), y = 0 := by
    intro y hy
    apply hz
    have hd : p.drop (jp + 1) = (p.drop 1).drop jp := by
      rw [List.drop_drop]
      congr 1
      omega
    rw [hd] at hy
    exact List.mem_of_mem_drop hy
  simp only [List.mem_append, List.mem_reverse] at hx
  rcases hx with (hx | hx) | hx
  · exact hdropz x hx
  · rw [List.eq_of_mem_replicate hx]
    exact getD_zero_of_tail_zero p hz h1
  · exact hdropz x hx

lemma tapPair_zero_weight (z : ℤ → ℤ → Val) (jq i_s : ℤ) : tapPair z jq i_s 0 = 0 := by
  unfold tapPair
  cases z jq i_s <;> simp [Prod.ext_iff]

lemma tapContribution_zero_weight (st : TriMeshStencil) (z : ℤ → ℤ → Val) (j i : ℤ)
    (jp ip : ℕ) (hs : (st.half_hex.getD jp []).getD ip 0 = 0) :
    tapContribution st z j i jp ip = 0 := by
  simp only [tapContribution, hs, tapPair_zero_weight]
  simp

/-- Shared extraction: the z channel of the lattice returned by `apply` with
handle_nan, at an in-range cell, is the nanmean cell value at the padded
coordinates. -/
lemma apply_z_eq (st : TriMeshStencil) (tm tm' : TriMesh) (title : Option String)
    (happly : st.apply tm true title = .ok tm') (j i : ℤ)
    (hj0 : 0 ≤ j) (hj1 : j < tm.nj) (hi0 : 0 ≤ i) (hi1 : i < tm.ni) :
    tm'.z j i = cellValue st (paddedZ tm (stencilBorder st.n))
      (j + stencilBorder st.n) (i + stencilBorder st.n) := by
  simp only [TriMeshStencil.apply, if_true] at happly
  rw [Except.ok.injEq] at happly
  rw [← happly]
  dsimp only
  rw [if_pos ⟨hj0, hj1, hi0, hi1⟩]

lemma tapContribution_center (st : TriMeshStencil) (z : ℤ → ℤ → Val) (j i : ℤ) (ip : ℕ) :
    tapContribution st z j i 0 ip
      = tapPair z j (i + st.start_ip.getD 0 0 + (ip : ℤ)) ((st.half_hex.getD 0 []).getD ip 0) := by
  simp [tapContribution]

/-- Claim C6: for a pattern whose ring weights (index ≥ 1) are all zero and
whose centre weight is nonzero, applying the stencil to a lattice containing
no missing values returns every cell unchanged (exactly, in ℚ): apply is the
identity on the field. -/
theorem C6_identity_stencil (p : List ℚ) (tm tm' : TriMesh)
    (hn : 2 ≤ p.length) (h0 : p.getD 0 0 ≠ 0) (hz : ∀ x ∈ p.drop 1, x = 0)
    (hnm : ∀ j i : ℤ, 0 ≤ j → j < tm.nj → 0 ≤ i → i < tm.ni → (tm.z j i).isSome = true)
    (happly : (mkStencil p).apply tm true .none = .ok tm')
    (j i : ℤ) (hj0 : 0 ≤ j) (hj1 : j < tm.nj) (hi0 : 0 ≤ i) (hi1 : i < tm.ni) :
    tm'.z j i = tm.z j i := by
  obtain ⟨v, hv⟩ := Option.isSome_iff_exists.mp (hnm j i hj0 hj1 hi0 hi1)
  have hzeq := apply_z_eq (mkStencil p) tm tm' .none happly j i hj0 hj1 hi0 hi1
  rw [hzeq]
  simp only [mkStencil_n]
  have hzpJI : paddedZ tm (stencilBorder p.length) (j + (stencilBorder p.length : ℤ))
      (i + (stencilBorder p.length : ℤ)) = some v := by
    unfold paddedZ
    rw [if_pos (by refine ⟨by omega, by omega, by omega, by omega⟩)]
    rw [show j + (stencilBorder p.length : ℤ) - (stencilBorder p.length : ℤ) = j by ring,
      show i + (stencilBorder p.length : ℤ) - (stencilBorder p.length : ℤ) = i by ring]
    exact hv
  have haccum : cellAccum (mkStencil p) (paddedZ tm (stencilBorder p.length))
      (j + (stencilBorder p.length : ℤ)) (i + (stencilBorder p.length : ℤ))
      = (v * p.getD 0 0, p.getD 0 0) := by
    rw [cellAccum_eq_sum]
    rw [Finset.sum_eq_single_of_mem 0
      (Finset.mem_range.mpr (by rw [mkStencil_n]; omega))]
    · rw [Finset.sum_eq_single_of_mem (p.length - 1)
        (Finset.mem_range.mpr (by rw [mkStencil_row_length p (by omega)]; omega))]
      · rw [tapContribution_center]
        have hsip : (mkStencil p).start_ip.getD 0 0 = -((p.length : ℤ) - 1) := by
          rw [mkStencil_start_ip p (by omega)]
          simp
        have hw : ((mkStencil p).half_hex.getD 0 []).getD (p.length - 1) 0 = p.getD 0 0 := by
          rw [mkStencil_half_hex_zero]
          exact row0_center p (by omega)
        rw [hsip, hw]
        have harg : i + (stencilBorder p.length : ℤ) + -((p.length : ℤ) - 1)
            + ((p.length - 1 : ℕ) : ℤ) = i + (stencilBorder p.length : ℤ) := by
          have hc : ((p.length - 1 : ℕ) : ℤ) = (p.length : ℤ) - 1 := by omega
          rw [hc]
          ring
        rw [harg]
        unfold tapPair
        rw [hzpJI]
      · intro ip hip hne
        apply tapContribution_zero_weight
        rw [mkStencil_half_hex_zero]
        exact row0_getD_zero p hn hz hne
    · intro jp hjp hne
      apply Finset.sum_eq_zero
      intro ip hip
      apply tapContribution_zero_weight
      rw [mkStencil_n] at hjp
      exact row_succ_zero p hn hz (by omega) (Finset.mem_range.mp hjp) ip
  unfold cellValue
  rw [haccum]
  rw [if_pos (by simpa using h0)]
  rw [hv]
  simp only [Option.some.injEq]
  exact mul_div_cancel_right₀ v h0

lemma all_isSome_of_not_any_isNone (p0 : List Val)
    (h2 : ¬(p0.any fun v => v.isNone) = true) : ∀ v ∈ p0, v.isSome = true := by
  intro v hv
  cases v with
  | some x => rfl
  | none => exact absurd (List.any_eq_true.mpr ⟨none, hv, rfl⟩) h2

lemma any_isNone_eq_false (p0 : List Val) (hsome : ∀ v ∈ p0, v.isSome = true) :
    (p0.any fun v => v.isNone) = false := by
  rw [List.any_eq_false]
  intro v hv
  cases v with
  | some x => simp
  | none => exact absurd (hsome none hv) (by simp)

/-- Claim C7: stencil construction fails exactly when the radial pattern is
too short (length < 2), contains a missing (NaN) entry, or — when a normalise
target is requested — the target is zero or the pattern's raw sum is zero;
otherwise it succeeds, and the size warning is set exactly when the length
exceeds 50 (so length 51 succeeds with a warning, length 1 fails).  A
non-one-dimensional pattern is not representable in this list embedding, so
that failure mode has no instance here. -/
theorem C7_validation (p0 : List Val) (normalise : Option ℚ) :
    ((∃ r, buildStencil p0 normalise = .ok r) ↔
      (2 ≤ p0.length ∧ (∀ v ∈ p0, v.isSome = true) ∧
        ∀ s, normalise = some s → s ≠ 0 ∧ (p0.map (fun v => v.getD 0)).sum ≠ 0)) ∧
    (∀ st w, buildStencil p0 normalise = .ok (st, w) → (w = true ↔ 50 < p0.length)) := by
  cases normalise with
  | none =>
    constructor
    · constructor
      · rintro ⟨r, hr⟩
        simp only [buildStencil] at hr
        split at hr
        · cases hr
        · rename_i h1
          split at hr
          · cases hr
          · rename_i h2
            exact ⟨by omega, all_isSome_of_not_any_isNone p0 h2, fun s hs => by cases hs⟩
      · rintro ⟨hlen, hsome, -⟩
        simp only [buildStencil]
        rw [if_neg (by omega), if_neg (by simp [any_isNone_eq_false p0 hsome])]
        exact ⟨_, rfl⟩
    · intro st w hr
      simp only [buildStencil] at hr
      split at hr
      · cases hr
      · split at hr
        · cases hr
        · rw [Except.ok.injEq, Prod.mk.injEq] at hr
          rw [← hr.2]
          simp
  | some s0 =>
    constructor
    · constructor
      · rintro ⟨r, hr⟩
        simp only [buildStencil] at hr
        split at hr
        · cases hr
        · rename_i h1
          split at hr
          · cases hr
          · rename_i h2
            split at hr
            · cases hr
            · rename_i h3
              split at hr
              · cases hr
              · rename_i h4
                refine ⟨by omega, all_isSome_of_not_any_isNone p0 h2, ?_⟩
                intro s hs
                rw [Option.some.injEq] at hs
                subst hs
                exact ⟨h3, h4⟩
      · rintro ⟨hlen, hsome, hnorm⟩
        obtain ⟨hs0, hsum⟩ := hnorm s0 rfl
        simp only [buildStencil]
        rw [if_neg (by omega), if_neg (by simp [any_isNone_eq_false p0 hsome]),
          if_neg hs0, if_neg hsum]
        exact ⟨_, rfl⟩
    · intro st w hr
      simp only [buildStencil] at hr
      split at hr
      · cases hr
      · split at hr
        · cases hr
        · split at hr
          · cases hr
          · split at hr
            · cases hr
            · rw [Except.ok.injEq, Prod.mk.injEq] at hr
              rw [← hr.2]
              simp

/-- Claim C8: apply with handle_nan false always fails with the
not-implemented error before producing any output lattice, while with
handle_nan true no such error is raised and a lattice is returned. -/
theorem C8_exact_mode_not_implemented (st : TriMeshStencil) (tm : TriMesh)
    (title : Option String) :
    st.apply tm false title = .error .notImplemented ∧
    ∃ tm', st.apply tm true title = .ok tm' := by
  exact ⟨rfl, ⟨_, rfl⟩⟩

/-- Claim C9: apply (a pure function in this embedding, so the input lattice
is never mutated) returns a lattice carrying exactly the input's geometric
metadata — edge length, row and column counts, origin, unit tag, role tag and
reference frame — with only the z channel recomputed. -/
theorem C9_metadata_preserved (st : TriMeshStencil) (tm tm' : TriMesh) (title : Option String)
    (happly : st.apply tm true title = .ok tm') :
    tm'.t_side = tm.t_side ∧ tm'.nj = tm.nj ∧ tm'.ni = tm.ni ∧ tm'.origin = tm.origin ∧
    tm'.z_uom = tm.z_uom ∧ tm'.surface_role = tm.surface_role ∧
    tm'.crs_uuid = tm.crs_uuid := by
  simp only [TriMeshStencil.apply, if_true] at happly
  rw [Except.ok.injEq] at happly
  rw [← happly]
  exact ⟨rfl, rfl, rfl, rfl, rfl, rfl, rfl⟩

/-- Claim C10: is_equivalent returns False for None or a non-FrontierFeature
argument; returns True on itself or on a matching uuid without comparing
names or extra metadata; and otherwise returns True exactly when the feature
names agree and, if requested, the extra metadata is equivalent. -/
theorem C10_is_equivalent (emEquiv : FrontierFeature → FrontierFeature → Bool)
    (f : FrontierFeature) (cem : Bool) :
    FrontierFeature.is_equivalent emEquiv f .none cem = false ∧
    FrontierFeature.is_equivalent emEquiv f .notFF cem = false ∧
    (∀ o : FrontierFeature, f.uuid = o.uuid →
      FrontierFeature.is_equivalent emEquiv f (.ff o) cem = true) ∧
    FrontierFeature.is_equivalent emEquiv f (.ff f) cem = true ∧
    (∀ o : FrontierFeature, f.uuid ≠ o.uuid →
      (FrontierFeature.is_equivalent emEquiv f (.ff o) cem = true ↔
        (f.feature_name = o.feature_name ∧ (cem = true → emEquiv f o = true)))) := by
  refine ⟨rfl, rfl, ?_, ?_, ?_⟩
  · intro o h
    simp [FrontierFeature.is_equivalent, matching_uuids, h]
  · simp [FrontierFeature.is_equivalent, matching_uuids]
  · intro o h
    simp only [FrontierFeature.is_equivalent, matching_uuids]
    rw [if_neg (by simpa using h)]
    cases cem with
    | false => simp [FrontierFeature.feature_name]
    | true =>
      by_cases hem : emEquiv f o = true
      · simp [hem, FrontierFeature.feature_name]
      · simp [hem]

/-! ### Witnesses: each claim theorem exercised at a concrete input -/

/-- Witness for C1 at the identity stencil on the 2 x 2 lattice. -/
theorem C1_weighted_nanmean_witness :
    (0 : ℤ) < tmA.nj ∧ stA.apply tmA true .none = .ok tmA' ∧
    ((tmA'.z 0 0
      = if (∑ jp ∈ Finset.range stA.n, ∑ ip ∈ Finset.range (stA.row_length.getD jp 0),
              (tapContribution stA (paddedZ tmA (stencilBorder stA.n))
                ((0 : ℤ) + stencilBorder stA.n) ((0 : ℤ) + stencilBorder stA.n) jp ip).2) ≠ 0
        then some
          ((∑ jp ∈ Finset.range stA.n, ∑ ip ∈ Finset.range (stA.row_length.getD jp 0),
              (tapContribution stA (paddedZ tmA (stencilBorder stA.n))
                ((0 : ℤ) + stencilBorder stA.n) ((0 : ℤ) + stencilBorder stA.n) jp ip).1)
            / (∑ jp ∈ Finset.range stA.n, ∑ ip ∈ Finset.range (stA.row_length.getD jp 0),
              (tapContribution stA (paddedZ tmA (stencilBorder stA.n))
                ((0 : ℤ) + stencilBorder stA.n) ((0 : ℤ) + stencilBorder stA.n) jp ip).2))
        else none) ∧
      ((∀ jp < stA.n, ∀ ip < stA.row_length.getD jp 0,
          ∀ c ∈ tapCoords stA ((0 : ℤ) + stencilBorder stA.n) ((0 : ℤ) + stencilBorder stA.n) jp ip,
            paddedZ tmA (stencilBorder stA.n) c.1 c.2 = none) →
        tmA'.z 0 0 = none)) :=
  ⟨by decide, rfl,
    C1_weighted_nanmean stA tmA tmA' 0 0 (by decide) (by decide) (by decide) (by decide) rfl⟩

/-- Witness for C2 at pattern [1, 2] with normalise target 5. -/
theorem C2_normalisation_sum_witness :
    2 ≤ ([1, 2] : List ℚ).length ∧ ([1, 2] : List ℚ).sum ≠ 0 ∧ (5 : ℚ) ≠ 0 ∧
    ((normalisePattern [1, 2] 5).getD 0 0
      + ∑ k ∈ Finset.Icc 1 (([1, 2] : List ℚ).length - 1),
          (normalisePattern [1, 2] 5).getD k 0 * (6 * (k : ℚ)) = 5) :=
  ⟨by decide, by norm_num [List.sum_cons], by norm_num,
    C2_normalisation_sum [1, 2] 5 (by decide) (by norm_num [List.sum_cons]) (by norm_num)⟩

/-- Witness for C3 at pattern [1, 2, 3]. -/
theorem C3_row_geometry_witness :
    2 ≤ ([1, 2, 3] : List ℚ).length ∧
    ((mkStencil [1, 2, 3]).row_length.getD 0 0 = 2 * ([1, 2, 3] : List ℚ).length - 1 ∧
    (∀ jp, 1 ≤ jp → jp ≤ ([1, 2, 3] : List ℚ).length - 1 →
      (mkStencil [1, 2, 3]).row_length.getD jp 0
        = (mkStencil [1, 2, 3]).row_length.getD (jp - 1) 0 - 1) ∧
    (mkStencil [1, 2, 3]).row_length.getD (([1, 2, 3] : List ℚ).length - 1) 0
      = ([1, 2, 3] : List ℚ).length ∧
    (mkStencil [1, 2, 3]).start_ip.getD 0 0 = -((([1, 2, 3] : List ℚ).length : ℤ) - 1) ∧
    (∀ jp, 1 ≤ jp → jp ≤ ([1, 2, 3] : List ℚ).length - 1 →
      (mkStencil [1, 2, 3]).start_ip.getD jp 0
        = -((([1, 2, 3] : List ℚ).length : ℤ) - 1) + ((jp / 2 : ℕ) : ℤ))) :=
  ⟨by decide, C3_row_geometry [1, 2, 3] (by decide)⟩

/-- Witness for C4 at pattern [1, 2, 3], row jp = 1. -/
theorem C4_radial_symmetry_witness :
    2 ≤ ([1, 2, 3] : List ℚ).length ∧ 1 < ([1, 2, 3] : List ℚ).length ∧
    (((mkStencil [1, 2, 3]).half_hex.getD 1 []).reverse
        = (mkStencil [1, 2, 3]).half_hex.getD 1 [] ∧
      (mkStencil [1, 2, 3]).half_hex.getD 1 []
        = (([1, 2, 3] : List ℚ).drop 2).reverse
          ++ List.replicate 2 (([1, 2, 3] : List ℚ).getD 1 0)
          ++ ([1, 2, 3] : List ℚ).drop 2) :=
  ⟨by decide, by decide, C4_radial_symmetry [1, 2, 3] (by decide) 1 (by decide)⟩

/-- Witness for C5 at pattern [1, 2] (border 2) on a 1 x 1 lattice, row jp = 1,
tap ip = 0, output cell (2, 2). -/
theorem C5_loop_in_bounds_witness :
    2 ≤ ([1, 2] : List ℚ).length ∧
    (stencilBorder ([1, 2] : List ℚ).length : ℤ) ≤ (2 : ℤ) ∧
    1 < (mkStencil [1, 2]).n ∧ 0 < (mkStencil [1, 2]).row_length.getD 1 0 ∧
    ((∀ c ∈ tapCoords (mkStencil [1, 2]) 2 2 1 0,
        0 ≤ c.1 ∧ c.1 < ((1 + 2 * stencilBorder ([1, 2] : List ℚ).length : ℕ) : ℤ) ∧
        0 ≤ c.2 ∧ c.2 < ((1 + 2 * stencilBorder ([1, 2] : List ℚ).length : ℕ) : ℤ)) ∧
      ((mkStencil [1, 2]).rect.getD 1 []).getD 0 none
        = some (((mkStencil [1, 2]).half_hex.getD 1 []).getD 0 0)) :=
  ⟨by decide, by decide, by decide, by decide,
    C5_loop_in_bounds [1, 2] 1 1 2 2 1 0 (by decide) (by decide) (by decide) (by decide)
      (by decide) (by decide) (by decide)⟩

/-- Witness for C6: the stencil [1, 0] leaves the fully populated 2 x 2
lattice unchanged at cell (0, 0). -/
theorem C6_identity_stencil_witness :
    2 ≤ ([1, 0] : List ℚ).length ∧ ([1, 0] : List ℚ).getD 0 0 ≠ 0 ∧
    tmA'.z 0 0 = tmA.z 0 0 :=
  ⟨by decide, by decide,
    C6_identity_stencil [1, 0] tmA tmA' (by decide) (by decide) (by decide)
      (fun j i h1 h2 h3 h4 => by
        simp only [tmA]
        rw [if_pos ⟨h1, by simpa [tmA] using h2, h3, by simpa [tmA] using h4⟩]
        rfl)
      rfl 0 0 (by decide) (by decide) (by decide) (by decide)⟩

/-- Witness for C7 at the valid pattern [1, 2] with normalise target 5. -/
theorem C7_validation_witness :
    ((∃ r, buildStencil [some 1, some 2] (some 5) = .ok r) ↔
      (2 ≤ ([some 1, some 2] : List Val).length ∧
        (∀ v ∈ ([some 1, some 2] : List Val), v.isSome = true) ∧
        ∀ s, (some 5 : Option ℚ) = some s →
          s ≠ 0 ∧ (([some 1, some 2] : List Val).map (fun v => v.getD 0)).sum ≠ 0)) ∧
    (∀ st w, buildStencil [some 1, some 2] (some 5) = .ok (st, w) →
      (w = true ↔ 50 < ([some 1, some 2] : List Val).length)) :=
  C7_validation [some 1, some 2] (some 5)

/-- Witness for C9: applying the identity stencil to the 2 x 2 lattice
preserves all geometric metadata. -/
theorem C9_metadata_preserved_witness :
    stA.apply tmA true .none = .ok tmA' ∧
    (tmA'.t_side = tmA.t_side ∧ tmA'.nj = tmA.nj ∧ tmA'.ni = tmA.ni ∧
      tmA'.origin = tmA.origin ∧ tmA'.z_uom = tmA.z_uom ∧
      tmA'.surface_role = tmA.surface_role ∧ tmA'.crs_uuid = tmA.crs_uuid) :=
  ⟨rfl, C9_metadata_preserved stA tmA tmA' .none rfl⟩

/-- Witness for C10 on two concrete features with distinct uuids. -/
theorem C10_is_equivalent_witness :
    FrontierFeature.is_equivalent (fun _ _ => true) ffA .none true = false ∧
    FrontierFeature.is_equivalent (fun _ _ => true) ffA (.ff ffA) true = true ∧
    ffA.uuid ≠ ffB.uuid ∧
    (FrontierFeature.is_equivalent (fun _ _ => true) ffA (.ff ffB) true = true ↔
      (ffA.feature_name = ffB.feature_name ∧
        (true = true → (fun _ _ => true : FrontierFeature → FrontierFeature → Bool) ffA ffB = true))) :=
  ⟨(C10_is_equivalent (fun _ _ => true) ffA true).1,
   (C10_is_equivalent (fun _ _ => true) ffA true).2.2.2.1,
   by decide,
   (C10_is_equivalent (fun _ _ => true) ffA true).2.2.2.2 ffB (by decide)⟩
